import Mathlib

/-!
Verification of the moneda elliptic-curve / ECDSA engine.

Shallow embedding of the Rust sources:
* `src/arithmetic/field.rs`  — `FieldElement` over `num_bigint::BigInt`
  (Rust `%` on `BigInt` is truncated remainder, embedded as `Int.tmod`;
  `BigInt::modpow` with a positive modulus returns the least non-negative
  residue, embedded as `Int.emod` of the power);
* `src/arithmetic/point.rs`  — curve points and the group law;
* `src/errors.rs`            — the error taxonomy;
* `src/crypto/rfc6979.rs`    — RFC 6979 nonce derivation (HMAC-SHA256 is an
  external collaborator and is a function parameter of the embedding; the
  unbounded candidate loop is indexed by fuel, `none` standing for a run
  that has not yet returned);
* `src/crypto/ecdsa.rs`, `src/crypto/keys.rs` — ECDSA over the external
  `k256` secp256k1 implementation.  secp256k1 has prime order `nOrder`
  with cofactor 1, so every point of the k256 group is a scalar multiple
  of the generator; the embedding represents a point by its discrete
  logarithm in `ZMod nOrder` and takes the affine x-coordinate map
  (`AffinePoint::x`) as a function parameter `pointX : ZMod nOrder → Nat`.
  `Scalar::from_repr` succeeds exactly on values below the order;
  `Scalar::invert` is Fermat inversion (exponentiation by `nOrder - 2`)
  and returns nothing on zero.  Rust `unwrap` panics are embedded as
  `Option` failure; the two `debug_assert!` lines in `sign` are no-ops in
  release builds and are not part of the embedded control flow.
-/

namespace Moneda

/-- Error type of `src/errors.rs` `FieldError`. -/
inductive FieldError where
  | invalidPrime (p : Int)
  | differentFields
deriving DecidableEq

/-- `FieldElement` of `src/arithmetic/field.rs`: `num: BigInt, prime: BigInt`. -/
structure FieldElement where
  num : Int
  prime : Int
deriving DecidableEq

/-- `FieldElement::from` (field.rs lines 15-30): reject `prime <= 1` with
`InvalidPrime`, otherwise store `((num % prime) + prime) % prime` where `%`
is Rust truncated remainder. -/
def FieldElement.fromInt (num prime : Int) : Except FieldError FieldElement :=
  if prime ≤ 1 then .error (.invalidPrime prime)
  else .ok { num := ((num.tmod prime) + prime).tmod prime, prime := prime }

/-- `BigInt::modpow` of the num-bigint collaborator for a non-negative
exponent and positive modulus: the least non-negative residue of the
power. -/
def modpowInt (base : Int) (e : Nat) (m : Int) : Int :=
  (base ^ e) % m

/-- `FieldElement::pow` (field.rs lines 33-40): reduce the exponent modulo
`prime - 1`, then `modpow`.  The Rust exponent is a `BigInt`, but
`BigInt::modpow` rejects negative exponents and the specification requires
negative exponents to be supplied as non-negative residues mod `p-1`, so
the embedded exponent is a natural number. -/
def FieldElement.pow (a : FieldElement) (exp : Nat) : FieldElement :=
  { num := modpowInt a.num (exp % (a.prime - 1).toNat) a.prime
    prime := a.prime }

/-- `impl Add for FieldElement` (field.rs lines 59-71). -/
def FieldElement.add (a b : FieldElement) : Except FieldError FieldElement :=
  if a.prime ≠ b.prime then .error .differentFields
  else .ok { num := (a.num + b.num).tmod a.prime, prime := a.prime }

/-- `impl Sub for FieldElement` (field.rs lines 73-86). -/
def FieldElement.sub (a b : FieldElement) : Except FieldError FieldElement :=
  if a.prime ≠ b.prime then .error .differentFields
  else .ok { num := ((a.num - b.num).tmod a.prime + a.prime).tmod a.prime
             prime := a.prime }

/-- `impl Mul for FieldElement` (field.rs lines 88-100). -/
def FieldElement.mul (a b : FieldElement) : Except FieldError FieldElement :=
  if a.prime ≠ b.prime then .error .differentFields
  else .ok { num := (a.num * b.num).tmod a.prime, prime := a.prime }

/-- `impl Mul<BigInt> for FieldElement` (field.rs lines 102-112): no
normalization beyond the truncated remainder, no modulus check. -/
def FieldElement.mulBigInt (a : FieldElement) (rhs : Int) : Except FieldError FieldElement :=
  .ok { num := (a.num * rhs).tmod a.prime, prime := a.prime }

/-- `impl Mul<FieldElement> for BigInt` (field.rs lines 114-124). -/
def bigIntMulFE (lhs : Int) (a : FieldElement) : Except FieldError FieldElement :=
  .ok { num := (lhs * a.num).tmod a.prime, prime := a.prime }

/-- `impl Div for FieldElement` (field.rs lines 126-141): multiply by the
Fermat inverse `rhs.num.modpow(prime - 2, prime)`. -/
def FieldElement.div (a b : FieldElement) : Except FieldError FieldElement :=
  if a.prime ≠ b.prime then .error .differentFields
  else
    .ok { num := (a.num * modpowInt b.num (a.prime - 2).toNat a.prime).tmod a.prime
          prime := a.prime }

/-- The representation invariant of `FieldElement` stated in the design
spec: the stored value is a normalized residue and the modulus exceeds 1. -/
def FieldElement.Normalized (a : FieldElement) : Prop :=
  0 ≤ a.num ∧ a.num < a.prime ∧ 1 < a.prime

instance (a : FieldElement) : Decidable a.Normalized := by
  unfold FieldElement.Normalized; infer_instance

/-- Error type of `src/errors.rs` `PointError`.  The Rust `NotOnCurve`,
`InvalidXOnly` and `InvalidYOnly` variants carry `Display`-formatted
strings of the offending coordinates; the embedding carries the
coordinates themselves. -/
inductive PointError where
  | notOnCurve (x y : FieldElement)
  | invalidXOnly (x : FieldElement)
  | invalidYOnly (y : FieldElement)
  | differentCurves
  | fieldError (e : FieldError)
deriving DecidableEq

/-- `Point` of `src/arithmetic/point.rs`: `Infinity { a, b }` or
`Finite { x, y, a, b }`.  Equality derives structurally, exactly the Rust
`PartialEq` (all coordinates and curve coefficients compared). -/
inductive Point where
  | infinity (a b : FieldElement)
  | finite (x y a b : FieldElement)
deriving DecidableEq

/-- The `#[from] FieldError` conversion applied by the `?` operator inside
point arithmetic. -/
def liftF {α : Type} : Except FieldError α → Except PointError α :=
  Except.mapError PointError.fieldError

/-- `Point::finite` (point.rs lines 24-44): validate `y² = x³ + a·x + b`
and reject with `NotOnCurve` on failure. -/
def Point.mkFinite (x y a b : FieldElement) : Except PointError Point := do
  let lhs := y.pow 2
  let xCubed := x.pow 3
  let ax ← liftF (a.mul x)
  let t ← liftF (xCubed.add ax)
  let rhs ← liftF (t.add b)
  if lhs ≠ rhs then .error (.notOnCurve x y)
  else .ok (.finite x y a b)

/-- `Point::is_inverse_of` (point.rs lines 116-134). -/
def Point.isInverseOf : Point → Point → Bool
  | .finite x1 y1 a1 b1, .finite x2 y2 a2 b2 =>
      a1 = a2 ∧ b1 = b2 ∧ x1 = x2 ∧ y1 ≠ y2
  | _, _ => false

/-- `Point::is_same_point` (point.rs lines 136-157). -/
def Point.isSamePoint : Point → Point → Bool
  | .finite x1 y1 a1 b1, .finite x2 y2 a2 b2 =>
      a1 = a2 ∧ b1 = b2 ∧ x1 = x2 ∧ y1 = y2
  | .infinity a1 b1, .infinity a2 b2 => a1 = a2 ∧ b1 = b2
  | _, _ => false

/-- `Point::point_doubling` (point.rs lines 65-92), finite case.  The Rust
code compares `y` against `FieldElement::from(0, y.prime).unwrap()`; the
unwrap panic on a modulus `≤ 1` is embedded as error propagation. -/
def Point.doubleFinite (x y a b : FieldElement) : Except PointError Point := do
  let zero ← liftF (FieldElement.fromInt 0 y.prime)
  if y = zero then return .infinity a b
  let threeXsq ← liftF (bigIntMulFE 3 (x.pow 2))
  let numerator ← liftF (threeXsq.add a)
  let denominator ← liftF (bigIntMulFE 2 y)
  let m ← liftF (numerator.div denominator)
  let mSq := m.pow 2
  let twoX ← liftF (bigIntMulFE 2 x)
  let x3 ← liftF (mSq.sub twoX)
  let xMinusX3 ← liftF (x.sub x3)
  let mTimesDiff ← liftF (m.mul xMinusX3)
  let y3 ← liftF (mTimesDiff.sub y)
  return .finite x3 y3 a b

/-- `Point::add_different_points` (point.rs lines 94-114), the only arm the
caller can reach (both points finite; the other arm is `unreachable!`).
The curve coefficients of the result come from the first operand. -/
def Point.addDifferentFinite (x1 y1 a b x2 y2 : FieldElement) : Except PointError Point := do
  let yDiff ← liftF (y2.sub y1)
  let xDiff ← liftF (x2.sub x1)
  let m ← liftF (yDiff.div xDiff)
  let mSq := m.pow 2
  let t ← liftF (mSq.sub x1)
  let x3 ← liftF (t.sub x2)
  let x1MinusX3 ← liftF (x1.sub x3)
  let mTimesDiff ← liftF (m.mul x1MinusX3)
  let y3 ← liftF (mTimesDiff.sub y1)
  return .finite x3 y3 a b

/-- `impl Add for Point` (point.rs lines 203-223).  The first two arms are
`add_identity` (an infinity operand returns the other operand unchanged —
note: with no comparison of the curve coefficients); `is_inverse_of` sends
reflections to `Infinity` carrying the first operand's coefficients
(`add_inverse_points`); `is_same_point` doubles; otherwise chord addition. -/
def Point.add (p q : Point) : Except PointError Point :=
  match p, q with
  | .infinity _ _, q => .ok q
  | p, .infinity _ _ => .ok p
  | .finite x1 y1 a1 b1, .finite x2 y2 a2 b2 =>
      if Point.isInverseOf (.finite x1 y1 a1 b1) (.finite x2 y2 a2 b2) then
        .ok (.infinity a1 b1)
      else if Point.isSamePoint (.finite x1 y1 a1 b1) (.finite x2 y2 a2 b2) then
        Point.doubleFinite x1 y1 a1 b1
      else
        Point.addDifferentFinite x1 y1 a1 b1 x2 y2

/-- Curve coefficients of a point (the `match` at point.rs lines 233-236). -/
def Point.curveOf : Point → FieldElement × FieldElement
  | .finite _ _ a b => (a, b)
  | .infinity a b => (a, b)

/-- Body of the double-and-add `while` loop of `impl Mul<Point> for BigInt`
(point.rs lines 243-250).  The loop halves `coef` every iteration, so a
fuel equal to the initial coefficient dominates the iteration count and
the fuel-exhaustion arm is unreachable from `Point.scalarMul`. -/
def Point.mulAux : Nat → Nat → Point → Point → Except PointError Point
  | _, 0, _, res => .ok res
  | 0, _, _, res => .ok res
  | fuel+1, coef, current, res => do
      let res' ← if coef % 2 = 1 then Point.add res current else .ok res
      let current' ← Point.add current current
      Point.mulAux fuel (coef / 2) current' res'

/-- `impl Mul<Point> for BigInt` (point.rs lines 225-253): double-and-add
from the accumulator `Infinity` on the operand's curve.  A non-positive
coefficient never enters the loop (`while coef > 0` with an arithmetic
right shift), yielding the identity. -/
def Point.scalarMul (k : Int) (p : Point) : Except PointError Point :=
  let (a, b) := p.curveOf
  Point.mulAux k.toNat k.toNat p (.infinity a b)

/-- The secp256k1 group order `n`, `Secp256k1Params::order()`
(src/curves/secp256k1.rs via `k256::Secp256k1::ORDER`). -/
def nOrder : Nat :=
  0xFFFFFFFFFFFFFFFFFFFFFFFFFFFFFFFEBAAEDCE6AF48A03BBFD25E8CD0364141

instance : NeZero nOrder := ⟨by decide⟩

/-- A `k256::Scalar`: an integer modulo the group order. -/
abbrev Scalar : Type := ZMod nOrder

/-- Big-endian byte encoding of a natural number on `len` bytes
(`U256::to_be_bytes` / `Scalar::to_bytes` with `len = 32`). -/
def toBytesBE : Nat → Nat → List Nat
  | 0, _ => []
  | len+1, n => toBytesBE len (n / 256) ++ [n % 256]

/-- `U256::from_be_bytes`: interpret a byte list as a big-endian integer. -/
def beToNat (bytes : List Nat) : Nat :=
  bytes.foldl (fun acc b => acc * 256 + b) 0

/-- Square-and-multiply helper for `modpowNat`.  The exponent halves every
step, so a fuel equal to the initial exponent dominates the iteration
count and the fuel-exhaustion arm is unreachable from `modpowNat`. -/
def modpowAux : Nat → Nat → Nat → Nat → Nat → Nat
  | _, 0, _, acc, _ => acc
  | 0, _, _, acc, _ => acc
  | fuel+1, exp, base, acc, m =>
      modpowAux fuel (exp / 2) (base * base % m)
        (if exp % 2 = 1 then acc * base % m else acc) m

/-- Binary modular exponentiation `base ^ exp mod m`. -/
def modpowNat (base exp m : Nat) : Nat :=
  modpowAux exp exp (base % m) (1 % m) m

/-- The value of `k256::Scalar::invert` on a non-zero scalar: Fermat
inversion, exponentiation by `nOrder - 2` modulo the prime group order. -/
def scalarInvVal (s : Scalar) : Scalar :=
  (modpowNat s.val (nOrder - 2) nOrder : Nat)

/-- `k256::Scalar::invert`: `CtOption` that is empty exactly on zero. -/
def scalarInvert (s : Scalar) : Option Scalar :=
  if s = 0 then none else some (scalarInvVal s)

/-- `k256::Scalar::from_repr` on the 32-byte big-endian encoding of `x`:
succeeds exactly when the value is below the group order. -/
def scalarFromNat (x : Nat) : Option Scalar :=
  if x < nOrder then some (x : Scalar) else none

/-- The candidate-rejection loop of `generate_deterministic_nonce`
(rfc6979.rs lines 44-64), indexed by fuel: draw `V = HMAC_K(V)`, accept a
candidate in `(0, order)`, otherwise re-key with `K = HMAC_K(V || 0x00)`,
`V = HMAC_K(V)` and retry.  `none` models a run that has not yet
returned. -/
def nonceLoop (hmac : List Nat → List Nat → List Nat) :
    Nat → List Nat → List Nat → Option Nat
  | 0, _, _ => none
  | fuel+1, k, v =>
      let v1 := hmac k v
      let candidate := beToNat v1
      if 0 < candidate ∧ candidate < nOrder then some candidate
      else
        let k1 := hmac k (v1 ++ [0])
        let v2 := hmac k1 v1
        nonceLoop hmac fuel k1 v2

/-- `generate_deterministic_nonce` (rfc6979.rs lines 10-65).  HMAC-SHA256
is an external collaborator and enters as the function parameter `hmac`
(key, message ↦ 32-byte tag).  `V = 0x01 × 32`, `K = 0x00 × 32`, two
re-key rounds with separators `0x00` and `0x01`, then the candidate
loop.  The accepted candidate is returned as its integer value (the Rust
`Scalar::from_repr(v).unwrap()` cannot fail since the candidate is below
the order). -/
def generateDeterministicNonce (hmac : List Nat → List Nat → List Nat)
    (privateKey messageHash : List Nat) (fuel : Nat) : Option Nat :=
  let v0 := List.replicate 32 1
  let k0 := List.replicate 32 0
  let k1 := hmac k0 (v0 ++ [0] ++ privateKey ++ messageHash)
  let v1 := hmac k1 v0
  let k2 := hmac k1 (v1 ++ [1] ++ privateKey ++ messageHash)
  let v2 := hmac k2 v1
  nonceLoop hmac fuel k2 v2

/-- `Signature { r: U256, s: U256 }` of src/crypto/ecdsa.rs. -/
structure Sig where
  r : Nat
  s : Nat
deriving DecidableEq

/-- The low-s normalization step of `PrivateKey::sign` (ecdsa.rs lines
58-64): `half_order = order >> 1`; if `s_raw > half_order` return
`order.wrapping_sub(s_raw)` (no wrap occurs since `s_raw < order`),
else `s_raw`. -/
def lowSNormalize (sRaw : Nat) : Nat :=
  if nOrder / 2 < sRaw then nOrder - sRaw else sRaw

/-- `PrivateKey::sign` (ecdsa.rs lines 18-71) for a private scalar `d` and
digest `h`.  The k256 group has prime order with cofactor 1, so the point
`R = k·G` is represented by its discrete logarithm `k : Scalar` and its
affine x-coordinate is the collaborator parameter `pointX`.  Steps, in
source order: RFC 6979 nonce from the 32-byte encodings of `d` and `h`;
`r = (k·G).x mod n`; `Scalar::from_repr` unwraps of `h`, `r` and the
private key (`Option` failure on a value `≥ n`); `k.invert().unwrap()`
(failure on `k = 0`); `s_raw = k⁻¹·(h + r·d) mod n`; low-s normalization.
The two `debug_assert!` checks are no-ops in release builds. -/
def signECDSA (pointX : Scalar → Nat) (hmac : List Nat → List Nat → List Nat)
    (fuel d h : Nat) : Option Sig := do
  let k ← generateDeterministicNonce hmac (toBytesBE 32 d) (toBytesBE 32 h) fuel
  let r := pointX (k : Scalar) % nOrder
  let hS ← scalarFromNat h
  let rS ← scalarFromNat r
  let dS ← scalarFromNat d
  let kInv ← scalarInvert (k : Scalar)
  let sRaw := (kInv * (hS + rS * dS)).val
  some ⟨r, lowSNormalize sRaw⟩

/-- `verify` (ecdsa.rs lines 75-129) for a public key with discrete
logarithm `q`.  Range checks on `r` and `s`; `Scalar::from_repr` of `s`,
`r`, `h` with `false` on failure; `w = s⁻¹` with `false` on failure;
`u1 = h·w`, `u2 = r·w`; the combination point `u1·G + u2·Q` has discrete
logarithm `u1 + u2·q`; accept iff its affine x-coordinate reduced mod `n`
equals `r`.  `AffinePoint::IDENTITY` in k256 carries `x = 0`, so `pointX`
applied at the identity is the model of the x-bytes of the point at
infinity. -/
def verifyECDSA (pointX : Scalar → Nat) (q : Scalar) (h : Nat) (sig : Sig) : Bool :=
  if sig.r = 0 ∨ nOrder ≤ sig.r then false
  else if sig.s = 0 ∨ nOrder ≤ sig.s then false
  else
    match scalarFromNat sig.s with
    | none => false
    | some sS =>
      match scalarFromNat sig.r with
      | none => false
      | some rS =>
        match scalarFromNat h with
        | none => false
        | some hS =>
          match scalarInvert sS with
          | none => false
          | some w =>
            let u1 := hS * w
            let u2 := rS * w
            pointX (u1 + u2 * q) % nOrder == sig.r

/-- `PrivateKey::public_key` (keys.rs lines 35-39): the public key is
`d·G`, whose discrete logarithm is `d` itself. -/
def publicKeyDlog (d : Nat) : Scalar := (d : Scalar)

/-- `PrivateKey::from_bytes` (keys.rs lines 27-32): `Scalar::from_repr`,
`InvalidPrivateKey` on failure.  Note `from_repr` accepts any value below
the order, zero included. -/
def privateKeyFromBytes (bytes : List Nat) : Option Nat :=
  if beToNat bytes < nOrder then some (beToNat bytes) else none

/-- Toy instantiation of the HMAC collaborator used only to evaluate
theorems at concrete inputs: every tag is the 32-byte encoding of 1. -/
def hmacConst1 : List Nat → List Nat → List Nat :=
  fun _ _ => List.replicate 31 0 ++ [1]

/-- Toy instantiation of the x-coordinate collaborator used only to
evaluate theorems at concrete inputs. -/
def pointXVal : Scalar → Nat := fun m => m.val

/-- Degenerate x-coordinate collaborator used only to evaluate theorems at
concrete inputs; sends every point to 0, as k256 does for the identity. -/
def pointXZero : Scalar → Nat := fun _ => 0

/-! ## Arithmetic helper lemmas -/

theorem tmod_neg_left (a b : Int) : (-a).tmod b = -(a.tmod b) := by
  simp [Int.tmod_def, Int.neg_tdiv, Int.mul_neg, Int.sub_eq_add_neg]
  ring

theorem tmod_emod (a b : Int) : a.tmod b % b = a % b := by
  conv_rhs => rw [← Int.tmod_add_tdiv a b]
  rw [Int.add_mul_emod_self_left]

theorem tmod_gt_neg (a : Int) {b : Int} (hb : 0 < b) : -b < a.tmod b := by
  rcases le_or_lt 0 a with ha | ha
  · have := Int.tmod_nonneg b ha
    linarith
  · have h1 : (-a).tmod b < b := Int.tmod_lt_of_pos (-a) hb
    rw [tmod_neg_left] at h1
    linarith

/-- The reduce-then-shift-then-reduce sequence of `FieldElement::from` and
`Sub` equals the least non-negative residue. -/
theorem shift_tmod_eq_emod (a : Int) {p : Int} (hp : 0 < p) :
    (a.tmod p + p).tmod p = a % p := by
  have h0 : 0 ≤ a.tmod p + p := by
    have := tmod_gt_neg a hp
    linarith
  rw [Int.tmod_eq_emod h0 (le_of_lt hp)]
  have h1 : a.tmod p + p = a.tmod p + p * 1 := by ring
  rw [h1, Int.add_mul_emod_self_left, tmod_emod]

theorem tmod_range_of_nonneg {x : Int} (p : Int) (hx : 0 ≤ x) (hp : 0 < p) :
    0 ≤ x.tmod p ∧ x.tmod p < p :=
  ⟨Int.tmod_nonneg p hx, Int.tmod_lt_of_pos x hp⟩

theorem modpowInt_range (b : Int) (e : Nat) {m : Int} (hm : 0 < m) :
    0 ≤ modpowInt b e m ∧ modpowInt b e m < m :=
  ⟨Int.emod_nonneg _ (by omega), Int.emod_lt_of_pos _ hm⟩

/-! ## C4, C8, C9: FieldElement theorems -/

/-- C4.  Exponent periodicity of `FieldElement::pow`: because the exponent
is reduced modulo `prime - 1` before exponentiating, `a.pow e` equals
`a.pow (e + (p-1))` for every exponent `e` (negative exponents being
supplied, as the specification prescribes, as non-negative residues
mod `p-1`). -/
theorem pow_exponent_periodic (a : FieldElement) (e : Nat) :
    a.pow e = a.pow (e + (a.prime - 1).toNat) := by
  unfold FieldElement.pow
  rw [Nat.add_mod_right]

/-- C8.  `FieldElement::from` fails with `InvalidPrime` exactly when the
modulus is at most 1; otherwise it succeeds and the stored value is the
least non-negative residue of the input: in `[0, p-1]` and congruent to
the input modulo `p`, negative inputs included. -/
theorem fromInt_normalizes (n p : Int) :
    (FieldElement.fromInt n p = .error (.invalidPrime p) ↔ p ≤ 1) ∧
    (1 < p → ∃ fe, FieldElement.fromInt n p = .ok fe ∧ fe.prime = p ∧
      0 ≤ fe.num ∧ fe.num < p ∧ fe.num % p = n % p) := by
  have hiff : FieldElement.fromInt n p = .error (.invalidPrime p) ↔ p ≤ 1 := by
    unfold FieldElement.fromInt
    split_ifs with h
    · simp [h]
    · simp [h]
  refine ⟨hiff, fun hp => ?_⟩
  have hp0 : 0 < p := by linarith
  refine ⟨⟨(n.tmod p + p).tmod p, p⟩, ?_, rfl, ?_, ?_, ?_⟩
  · unfold FieldElement.fromInt
    rw [if_neg (not_le.mpr hp)]
  · rw [shift_tmod_eq_emod n hp0]
    exact Int.emod_nonneg n (by omega)
  · rw [shift_tmod_eq_emod n hp0]
    exact Int.emod_lt_of_pos n hp0
  · rw [shift_tmod_eq_emod n hp0]
    exact Int.emod_emod_of_dvd n dvd_rfl

/-- C8 witness: the theorem applied at `n = -5`, `p = 7`. -/
theorem fromInt_normalizes_witness :
    (1 : Int) < 7 ∧ ∃ fe, FieldElement.fromInt (-5) 7 = .ok fe ∧ fe.prime = 7 ∧
      0 ≤ fe.num ∧ fe.num < 7 ∧ fe.num % 7 = (-5) % 7 :=
  ⟨by norm_num, (fromInt_normalizes (-5) 7).2 (by norm_num)⟩

/-- C9 counterexample: the mixed multiplication
`impl Mul<BigInt> for FieldElement` applies only the truncated remainder,
so an in-invariant element times the negative scalar `-1` yields a stored
value of `-1`, outside `[0, modulus)`. -/
theorem field_invariant_negative_scalar_cex :
    FieldElement.Normalized ⟨1, 7⟩ ∧
    FieldElement.mulBigInt ⟨1, 7⟩ (-1) = .ok ⟨-1, 7⟩ ∧
    ¬ FieldElement.Normalized ⟨-1, 7⟩ :=
  ⟨by decide, rfl, by decide⟩

/-- C9 as amended: every `FieldElement` produced by `add`, `sub`, `mul`,
`div`, `pow`, or by either mixed scalar multiplication with a
*non-negative* scalar, satisfies `0 ≤ value < modulus`, for in-invariant
operands.  (For negative scalars the mixed multiplications violate the
invariant; see the counterexample.) -/
theorem field_ops_preserve_invariant (a b : FieldElement) (k : Int) (e : Nat)
    (ha : a.Normalized) (hb : b.Normalized) (hk : 0 ≤ k) :
    (∀ c, a.add b = .ok c → c.Normalized) ∧
    (∀ c, a.sub b = .ok c → c.Normalized) ∧
    (∀ c, a.mul b = .ok c → c.Normalized) ∧
    (∀ c, a.div b = .ok c → c.Normalized) ∧
    (a.pow e).Normalized ∧
    (∀ c, a.mulBigInt k = .ok c → c.Normalized) ∧
    (∀ c, bigIntMulFE k a = .ok c → c.Normalized) := by
  obtain ⟨ha0, halt, hap⟩ := ha
  obtain ⟨hb0, hblt, hbp⟩ := hb
  have hp0 : 0 < a.prime := by linarith
  refine ⟨?_, ?_, ?_, ?_, ?_, ?_, ?_⟩
  · intro c hc
    unfold FieldElement.add at hc
    split_ifs at hc
    cases hc
    have := tmod_range_of_nonneg a.prime (by linarith : 0 ≤ a.num + b.num) hp0
    exact ⟨this.1, this.2, hap⟩
  · intro c hc
    unfold FieldElement.sub at hc
    split_ifs at hc
    cases hc
    rw [FieldElement.Normalized]
    simp only
    rw [shift_tmod_eq_emod _ hp0]
    exact ⟨Int.emod_nonneg _ (by omega), Int.emod_lt_of_pos _ hp0, hap⟩
  · intro c hc
    unfold FieldElement.mul at hc
    split_ifs at hc
    cases hc
    have := tmod_range_of_nonneg a.prime (mul_nonneg ha0 hb0) hp0
    exact ⟨this.1, this.2, hap⟩
  · intro c hc
    unfold FieldElement.div at hc
    split_ifs at hc
    cases hc
    have hinv := modpowInt_range b.num (a.prime - 2).toNat hp0
    have := tmod_range_of_nonneg a.prime (mul_nonneg ha0 hinv.1) hp0
    exact ⟨this.1, this.2, hap⟩
  · unfold FieldElement.pow
    have := modpowInt_range a.num (e % (a.prime - 1).toNat) hp0
    exact ⟨this.1, this.2, hap⟩
  · intro c hc
    unfold FieldElement.mulBigInt at hc
    cases hc
    have := tmod_range_of_nonneg a.prime (mul_nonneg ha0 hk) hp0
    exact ⟨this.1, this.2, hap⟩
  · intro c hc
    unfold bigIntMulFE at hc
    cases hc
    have := tmod_range_of_nonneg a.prime (mul_nonneg hk ha0) hp0
    exact ⟨this.1, this.2, hap⟩

/-- C9 witness: the theorem applied at `a = 2`, `b = 3` in the field of 7,
scalar `k = 4`, exponent `e = 5`. -/
theorem field_ops_preserve_invariant_witness :
    ((⟨2, 7⟩ : FieldElement).pow 5).Normalized ∧
    (∀ c, FieldElement.add ⟨2, 7⟩ ⟨3, 7⟩ = .ok c → c.Normalized) := by
  have h := field_ops_preserve_invariant ⟨2, 7⟩ ⟨3, 7⟩ 4 5
    (by decide) (by decide) (by decide)
  exact ⟨h.2.2.2.2.1, h.1⟩

/-! ## C5, C6: point group law theorems -/

set_option maxRecDepth 10000 in
/-- C5.  Contrary to the specification, `impl Add for Point` performs no
comparison of the curve coefficients: an identity operand is returned
against a point of a *different* curve, and two finite points of
different curves (here `(3,60)` on `b = 5` and `(192,105)` on `b = 7`
over the field of 223, both passing their own curve-equation check) are
combined by the chord formula into an `Ok` point instead of failing with
`DifferentCurves`.  The `DifferentCurves` variant is declared in
`src/errors.rs` but constructed nowhere. -/
theorem cross_curve_add_not_rejected :
    Point.mkFinite ⟨3, 223⟩ ⟨60, 223⟩ ⟨0, 223⟩ ⟨5, 223⟩
      = .ok (.finite ⟨3, 223⟩ ⟨60, 223⟩ ⟨0, 223⟩ ⟨5, 223⟩) ∧
    Point.mkFinite ⟨192, 223⟩ ⟨105, 223⟩ ⟨0, 223⟩ ⟨7, 223⟩
      = .ok (.finite ⟨192, 223⟩ ⟨105, 223⟩ ⟨0, 223⟩ ⟨7, 223⟩) ∧
    Point.add (.infinity ⟨0, 223⟩ ⟨5, 223⟩)
        (.finite ⟨192, 223⟩ ⟨105, 223⟩ ⟨0, 223⟩ ⟨7, 223⟩)
      = .ok (.finite ⟨192, 223⟩ ⟨105, 223⟩ ⟨0, 223⟩ ⟨7, 223⟩) ∧
    Point.add (.finite ⟨3, 223⟩ ⟨60, 223⟩ ⟨0, 223⟩ ⟨5, 223⟩)
        (.finite ⟨192, 223⟩ ⟨105, 223⟩ ⟨0, 223⟩ ⟨7, 223⟩)
      = .ok (.finite ⟨23, 223⟩ ⟨137, 223⟩ ⟨0, 223⟩ ⟨5, 223⟩) ∧
    ∀ e, Point.add (.finite ⟨3, 223⟩ ⟨60, 223⟩ ⟨0, 223⟩ ⟨5, 223⟩)
        (.finite ⟨192, 223⟩ ⟨105, 223⟩ ⟨0, 223⟩ ⟨7, 223⟩) ≠ .error e := by
  have h4 : Point.add (.finite ⟨3, 223⟩ ⟨60, 223⟩ ⟨0, 223⟩ ⟨5, 223⟩)
      (.finite ⟨192, 223⟩ ⟨105, 223⟩ ⟨0, 223⟩ ⟨7, 223⟩)
      = .ok (.finite ⟨23, 223⟩ ⟨137, 223⟩ ⟨0, 223⟩ ⟨5, 223⟩) := by rfl
  refine ⟨rfl, rfl, rfl, h4, fun e he => ?_⟩
  rw [h4] at he
  exact Except.noConfusion he

set_option maxRecDepth 10000 in
/-- C6.  Concrete toy-curve vectors over `a = 0, b = 7, prime = 223`:
all five tuples pass the curve-equation constructor, the point addition
`(192,105) + (17,56)` yields `(170,142)`, and the double-and-add scalar
multiplication `17 · (47,71)` yields `(194,172)`. -/
theorem toy_curve_vectors :
    Point.mkFinite ⟨192, 223⟩ ⟨105, 223⟩ ⟨0, 223⟩ ⟨7, 223⟩
      = .ok (.finite ⟨192, 223⟩ ⟨105, 223⟩ ⟨0, 223⟩ ⟨7, 223⟩) ∧
    Point.mkFinite ⟨17, 223⟩ ⟨56, 223⟩ ⟨0, 223⟩ ⟨7, 223⟩
      = .ok (.finite ⟨17, 223⟩ ⟨56, 223⟩ ⟨0, 223⟩ ⟨7, 223⟩) ∧
    Point.mkFinite ⟨47, 223⟩ ⟨71, 223⟩ ⟨0, 223⟩ ⟨7, 223⟩
      = .ok (.finite ⟨47, 223⟩ ⟨71, 223⟩ ⟨0, 223⟩ ⟨7, 223⟩) ∧
    Point.add (.finite ⟨192, 223⟩ ⟨105, 223⟩ ⟨0, 223⟩ ⟨7, 223⟩)
        (.finite ⟨17, 223⟩ ⟨56, 223⟩ ⟨0, 223⟩ ⟨7, 223⟩)
      = .ok (.finite ⟨170, 223⟩ ⟨142, 223⟩ ⟨0, 223⟩ ⟨7, 223⟩) ∧
    Point.scalarMul 17 (.finite ⟨47, 223⟩ ⟨71, 223⟩ ⟨0, 223⟩ ⟨7, 223⟩)
      = .ok (.finite ⟨194, 223⟩ ⟨172, 223⟩ ⟨0, 223⟩ ⟨7, 223⟩) :=
  ⟨rfl, rfl, rfl, rfl, rfl⟩

/-! ## C3, C2, C10, C7: ECDSA theorems -/

theorem nonceLoop_range (hmac : List Nat → List Nat → List Nat) :
    ∀ fuel k v c, nonceLoop hmac fuel k v = some c → 0 < c ∧ c < nOrder := by
  intro fuel
  induction fuel with
  | zero => intro k v c hc; simp [nonceLoop] at hc
  | succ n ih =>
    intro k v c hc
    unfold nonceLoop at hc
    dsimp only at hc
    split_ifs at hc with hguard
    · cases hc
      exact hguard
    · exact ih _ _ _ hc

/-- C3.  RFC 6979 nonce derivation is a function of the private-key bytes
and digest bytes alone — equal inputs give the identical nonce — and every
nonce it returns lies in `[1, order-1]`. -/
theorem nonce_deterministic_and_in_range
    (hmac : List Nat → List Nat → List Nat) (pk1 mh1 pk2 mh2 : List Nat)
    (fuel k : Nat) (hpk : pk1 = pk2) (hmh : mh1 = mh2)
    (hk : generateDeterministicNonce hmac pk1 mh1 fuel = some k) :
    generateDeterministicNonce hmac pk1 mh1 fuel
      = generateDeterministicNonce hmac pk2 mh2 fuel ∧
    1 ≤ k ∧ k ≤ nOrder - 1 := by
  subst hpk
  subst hmh
  unfold generateDeterministicNonce at hk
  have hr := nonceLoop_range hmac _ _ _ _ hk
  exact ⟨rfl, hr.1, by omega⟩

set_option maxRecDepth 10000 in
/-- C3 witness: the theorem applied to the toy HMAC collaborator, which
returns the nonce 1 on the first candidate draw. -/
theorem nonce_deterministic_and_in_range_witness :
    generateDeterministicNonce hmacConst1 [1] [2] 1
      = generateDeterministicNonce hmacConst1 [1] [2] 1 ∧
    1 ≤ 1 ∧ 1 ≤ nOrder - 1 :=
  nonce_deterministic_and_in_range hmacConst1 [1] [2] [1] [2] 1 1 rfl rfl
    (by decide)

theorem natCast_scalar_ne_zero {x : Nat} (h1 : 0 < x) (h2 : x < nOrder) :
    (x : Scalar) ≠ 0 := by
  intro h
  rw [ZMod.natCast_zmod_eq_zero_iff_dvd] at h
  exact absurd (Nat.le_of_dvd h1 h) (not_le.mpr h2)

/-- C7.  If the combination point `u1·G + u2·Q` computed by `verify` (with
`w = s⁻¹`, `u1 = h·w`, `u2 = r·w`) is the point at infinity — discrete
logarithm `h·w + r·w·q = 0` — then `verify` returns `false` for every
in-range signature, because k256 encodes the identity's affine
x-coordinate as 0 (`hx0`) while `r ≥ 1`. -/
theorem verify_rejects_infinity
    (pointX : Scalar → Nat) (q : Scalar) (h r s : Nat)
    (hx0 : pointX 0 = 0)
    (hr1 : 1 ≤ r) (hr2 : r ≤ nOrder - 1) (hs1 : 1 ≤ s) (hs2 : s ≤ nOrder - 1)
    (hinf : (h : Scalar) * scalarInvVal (s : Scalar)
        + (r : Scalar) * scalarInvVal (s : Scalar) * q = 0) :
    verifyECDSA pointX q h ⟨r, s⟩ = false := by
  have hn : 0 < nOrder := by decide
  have hrlt : r < nOrder := by omega
  have hslt : s < nOrder := by omega
  have hsz : (s : Scalar) ≠ 0 := natCast_scalar_ne_zero (by omega) hslt
  unfold verifyECDSA
  rw [if_neg (by simp; omega), if_neg (by simp; omega)]
  by_cases hh : h < nOrder
  · simp only [scalarFromNat, if_pos hslt, if_pos hrlt, if_pos hh,
      scalarInvert, if_neg hsz]
    rw [hinf, hx0]
    simp only [Nat.zero_mod]
    exact beq_eq_false_iff_ne.mpr (by omega)
  · simp only [scalarFromNat, if_pos hslt, if_pos hrlt, if_neg hh]

set_option maxRecDepth 10000 in
/-- C7 witness: the theorem applied to the degenerate x-coordinate
collaborator with `q = 0`, `h = 0`, `r = s = 1`, where the combination
point is the identity. -/
theorem verify_rejects_infinity_witness :
    (pointXZero 0 = 0 ∧
      ((0 : Nat) : Scalar) * scalarInvVal ((1 : Nat) : Scalar)
        + ((1 : Nat) : Scalar) * scalarInvVal ((1 : Nat) : Scalar) * 0 = 0) ∧
    verifyECDSA pointXZero 0 0 ⟨1, 1⟩ = false :=
  ⟨⟨rfl, by decide⟩,
    verify_rejects_infinity pointXZero 0 0 1 1 rfl (by decide) (by decide)
      (by decide) (by decide) (by decide)⟩

/-- C2.  Low-s canonicality: every signature returned by
`PrivateKey::sign` has `s ≤ order/2`, and the normalization step replaces
a raw `s` exceeding `order/2` (for any raw value below the order, as the
scalar arithmetic guarantees) by `order - s`. -/
theorem sign_low_s_canonical :
    (∀ (pointX : Scalar → Nat) (hmac : List Nat → List Nat → List Nat)
        (fuel d h : Nat) (sig : Sig),
      signECDSA pointX hmac fuel d h = some sig → sig.s ≤ nOrder / 2) ∧
    (∀ sRaw, sRaw < nOrder →
      (nOrder / 2 < sRaw → lowSNormalize sRaw = nOrder - sRaw) ∧
      lowSNormalize sRaw ≤ nOrder / 2) := by
  constructor
  · intro pointX hmac fuel d h sig hsig
    unfold signECDSA at hsig
    rcases Option.bind_eq_some.mp hsig with ⟨k, hk, h1⟩
    rcases Option.bind_eq_some.mp h1 with ⟨hS, hhS, h2⟩
    rcases Option.bind_eq_some.mp h2 with ⟨rS, hrS, h3⟩
    rcases Option.bind_eq_some.mp h3 with ⟨dS, hdS, h4⟩
    rcases Option.bind_eq_some.mp h4 with ⟨kInv, hkInv, h5⟩
    dsimp only at h5
    rw [Option.some_inj] at h5
    subst h5
    show lowSNormalize _ ≤ nOrder / 2
    have hval := ZMod.val_lt (kInv * (hS + rS * dS))
    unfold lowSNormalize
    split_ifs with hgt
    · omega
    · omega
  · intro sRaw hlt
    unfold lowSNormalize
    split_ifs with hgt
    · exact ⟨fun _ => rfl, by omega⟩
    · exact ⟨fun hx => absurd hx hgt, by omega⟩

set_option maxRecDepth 10000 in
/-- C2 witness: the theorem applied to a concrete signing run with the toy
collaborators (`d = 1`, `h = 0`, nonce 1, signature `(1, 1)`). -/
theorem sign_low_s_canonical_witness :
    signECDSA pointXVal hmacConst1 1 1 0 = some ⟨1, 1⟩ ∧
    (1 : Nat) ≤ nOrder / 2 :=
  ⟨by decide,
    sign_low_s_canonical.1 pointXVal hmacConst1 1 1 0 ⟨1, 1⟩ (by decide)⟩

/-- C10.  Signing is total under its precondition: for a private scalar in
`[1, order-1]` and a digest below the order, whenever the RFC 6979 loop
returns a nonce, `sign` returns `Ok` with a signature — no
`Scalar::from_repr` unwrap (digest, `r`, private key) and no nonce
inversion unwrap can fail, and the `Err` branch (absent from the source)
is never taken. -/
theorem sign_total_under_precondition
    (pointX : Scalar → Nat) (hmac : List Nat → List Nat → List Nat)
    (fuel d h k : Nat)
    (hd1 : 1 ≤ d) (hd2 : d ≤ nOrder - 1) (hh : h < nOrder)
    (hk : generateDeterministicNonce hmac (toBytesBE 32 d) (toBytesBE 32 h)
            fuel = some k) :
    ∃ sig, signECDSA pointX hmac fuel d h = some sig := by
  have hn : 0 < nOrder := by decide
  have hkr : 0 < k ∧ k < nOrder := by
    unfold generateDeterministicNonce at hk
    exact nonceLoop_range hmac _ _ _ _ hk
  have hkz : (k : Scalar) ≠ 0 := natCast_scalar_ne_zero hkr.1 hkr.2
  have hdlt : d < nOrder := by omega
  have hrlt : pointX (k : Scalar) % nOrder < nOrder := Nat.mod_lt _ hn
  have hsome : (signECDSA pointX hmac fuel d h).isSome := by
    unfold signECDSA
    rw [hk]
    simp only [Option.bind_eq_bind, Option.some_bind, scalarFromNat, if_pos hh,
      if_pos hrlt, if_pos hdlt, scalarInvert, if_neg hkz]
    rfl
  exact Option.isSome_iff_exists.mp hsome

set_option maxRecDepth 10000 in
/-- C10 witness: the theorem applied to a concrete signing run with the
toy collaborators at `d = 1`, `h = 0`. -/
theorem sign_total_under_precondition_witness :
    (1 ≤ 1 ∧ (1 : Nat) ≤ nOrder - 1 ∧ (0 : Nat) < nOrder ∧
      generateDeterministicNonce hmacConst1 (toBytesBE 32 1) (toBytesBE 32 0) 1
        = some 1) ∧
    ∃ sig, signECDSA pointXVal hmacConst1 1 1 0 = some sig :=
  ⟨⟨le_refl 1, by decide, by decide, by decide⟩,
    sign_total_under_precondition pointXVal hmacConst1 1 1 0 1
      (by decide) (by decide) (by decide) (by decide)⟩

/-- Supporting analysis for the ECDSA round-trip: whenever `sign` runs to
completion on a private scalar in `(0, order)` and digest below the order,
and the produced `r = x(k·G) mod n` and raw `s = k⁻¹·(h + r·d)` are both
non-zero (exactly the two conditions `sign` itself `debug_assert!`s), the
resulting signature verifies against the corresponding public key.  The
collaborator contracts enter as hypotheses: the x-coordinate map is even
under point negation (`hsym`, since `-P` mirrors `y` only), and Fermat
inversion inverts non-zero scalars (`hkinv`, `hsinv`, true because the
group order is prime). -/
theorem roundtrip_of_nonzero_r_s
    (pointX : Scalar → Nat) (hmac : List Nat → List Nat → List Nat)
    (fuel d h k : Nat)
    (hsym : ∀ m : Scalar, pointX (-m) = pointX m)
    (hd1 : 0 < d) (hd2 : d < nOrder) (hh : h < nOrder)
    (hk : generateDeterministicNonce hmac (toBytesBE 32 d) (toBytesBE 32 h)
            fuel = some k)
    (hr : pointX (k : Scalar) % nOrder ≠ 0)
    (hs : scalarInvVal (k : Scalar) * ((h : Scalar)
        + ((pointX (k : Scalar) % nOrder : Nat) : Scalar) * (d : Scalar)) ≠ 0)
    (hkinv : scalarInvVal (k : Scalar) * (k : Scalar) = 1)
    (hsinv : ∀ s : Scalar, s ≠ 0 → scalarInvVal s * s = 1) :
    ∀ sig, signECDSA pointX hmac fuel d h = some sig →
      verifyECDSA pointX (publicKeyDlog d) h sig = true := by
  intro sig hsig
  have hn : 0 < nOrder := by decide
  have hkr : 0 < k ∧ k < nOrder := by
    unfold generateDeterministicNonce at hk
    exact nonceLoop_range hmac _ _ _ _ hk
  have hkz : (k : Scalar) ≠ 0 := natCast_scalar_ne_zero hkr.1 hkr.2
  have hdlt : d < nOrder := hd2
  set r : Nat := pointX (k : Scalar) % nOrder with hrdef
  have hrlt : r < nOrder := Nat.mod_lt _ hn
  set sSc : Scalar := scalarInvVal (k : Scalar)
      * ((h : Scalar) + ((r : Nat) : Scalar) * (d : Scalar)) with hsdef
  set sRaw : Nat := sSc.val with hsrawdef
  -- what sign returns
  have hsig' : signECDSA pointX hmac fuel d h = some ⟨r, lowSNormalize sRaw⟩ := by
    unfold signECDSA
    rw [hk]
    simp only [Option.bind_eq_bind, Option.some_bind, scalarFromNat, if_pos hh,
      if_pos hrlt, if_pos hdlt, scalarInvert, if_neg hkz, Option.some_bind]
  rw [hsig'] at hsig
  rw [Option.some_inj] at hsig
  subst hsig
  -- facts about sRaw and s
  have hsrawlt : sRaw < nOrder := ZMod.val_lt sSc
  have hsrawne : sRaw ≠ 0 := fun h0 => hs ((ZMod.val_eq_zero sSc).mp h0)
  have hslt : lowSNormalize sRaw < nOrder := by unfold lowSNormalize; split_ifs <;> omega
  have hsne : lowSNormalize sRaw ≠ 0 := by unfold lowSNormalize; split_ifs <;> omega
  have hcastRaw : ((sRaw : Nat) : Scalar) = sSc := by
    rw [hsrawdef]; simp [ZMod.natCast_val, ZMod.cast_id]
  have hT : (k : Scalar) * sSc = (h : Scalar) + ((r : Nat) : Scalar) * (d : Scalar) := by
    rw [hsdef]
    calc (k : Scalar) * (scalarInvVal (k : Scalar) * ((h : Scalar) + ((r:Nat) : Scalar) * (d : Scalar)))
        = (scalarInvVal (k : Scalar) * (k : Scalar)) * ((h : Scalar) + ((r:Nat) : Scalar) * (d : Scalar)) := by ring
      _ = (h : Scalar) + ((r:Nat) : Scalar) * (d : Scalar) := by rw [hkinv, one_mul]
  -- the scalar of the final s
  have hsz : ((lowSNormalize sRaw : Nat) : Scalar) ≠ 0 :=
    natCast_scalar_ne_zero (by omega) hslt
  -- unfold verify
  unfold verifyECDSA
  rw [if_neg (by simp; omega), if_neg (by simp; omega)]
  simp only [scalarFromNat, if_pos hslt, if_pos hrlt, if_pos hh, scalarInvert,
    if_neg hsz]
  -- goal: (pointX (h*w + r*w*q) % nOrder == r) = true with w = scalarInvVal (s:Scalar)
  have hkey : (h : Scalar) * scalarInvVal ((lowSNormalize sRaw : Nat) : Scalar)
      + ((r:Nat) : Scalar) * scalarInvVal ((lowSNormalize sRaw : Nat) : Scalar) * publicKeyDlog d
      = (k : Scalar) ∨
      (h : Scalar) * scalarInvVal ((lowSNormalize sRaw : Nat) : Scalar)
      + ((r:Nat) : Scalar) * scalarInvVal ((lowSNormalize sRaw : Nat) : Scalar) * publicKeyDlog d
      = -(k : Scalar) := by
    unfold publicKeyDlog
    unfold lowSNormalize
    split_ifs with hgt
    · right
      have hcast : (((nOrder - sRaw : Nat)) : Scalar) = -sSc := by
        rw [Nat.cast_sub (le_of_lt hsrawlt), ZMod.natCast_self, hcastRaw]
        ring
      rw [hcast]
      have hw := hsinv (-sSc) (neg_ne_zero.mpr hs)
      set w : Scalar := scalarInvVal (-sSc) with hwdef
      have hws : w * sSc = -1 := by
        have : w * -sSc = 1 := hw
        linear_combination -this
      calc (h : Scalar) * w + ((r:Nat) : Scalar) * w * (d : Scalar)
          = w * ((h : Scalar) + ((r:Nat) : Scalar) * (d : Scalar)) := by ring
        _ = w * ((k : Scalar) * sSc) := by rw [hT]
        _ = (k : Scalar) * (w * sSc) := by ring
        _ = (k : Scalar) * (-1) := by rw [hws]
        _ = -(k : Scalar) := by ring
    · left
      rw [hcastRaw]
      have hw := hsinv sSc hs
      set w : Scalar := scalarInvVal sSc with hwdef
      calc (h : Scalar) * w + ((r:Nat) : Scalar) * w * (d : Scalar)
          = w * ((h : Scalar) + ((r:Nat) : Scalar) * (d : Scalar)) := by ring
        _ = w * ((k : Scalar) * sSc) := by rw [hT]
        _ = (w * sSc) * (k : Scalar) := by ring
        _ = 1 * (k : Scalar) := by rw [hw]
        _ = (k : Scalar) := by ring
  rcases hkey with hkey | hkey
  · rw [hkey]
    simp
  · rw [hkey, hsym]
    simp

end Moneda
